import Mathlib

/-!
Shallow embedding of the multi-strategy pipeline benchmark of
`less_slow.py`: the predicate library, the trial-division prime
factorization in its three styles (callback, generator, iterator
cursor), and the five pipeline strategies.

Python integers are modelled as `Int`.  The factorization loops only
ever apply `%` and `//` to positive operands (the loop guard
`number > 1` together with `factor ≥ 2` guarantees this), where
Python's semantics agree with `Int.emod` and `Int.ediv`.  While-loops
are modelled with an explicit fuel parameter and return `none` when
the fuel bound is hit; the termination theorems below show that a
fuel of `2·number + 1` always suffices, so the `Option` layer never
actually produces `none` at the fuels used by the definitions.
-/

/-- `PIPE_START = 3` from the source. -/
def PIPE_START : Int := 3

/-- `PIPE_END = 49` from the source. -/
def PIPE_END : Int := 49

/-- Python: `return x > 0 and (x & (x - 1)) == 0`.  The bitwise `and`
is only reached when `x > 0` (Python's `and` short-circuits), so it
is taken on the underlying natural number. -/
def is_power_of_two (x : Int) : Bool :=
  decide (0 < x) && decide (x.toNat &&& (x.toNat - 1) = 0)

/-- The constant `MAX_POWER_OF_THREE` from the source. -/
def MAX_POWER_OF_THREE : Int := 12157665459056928801

/-- Python: `return x > 0 and (MAX_POWER_OF_THREE % x == 0)`.  The
`%` is only reached when `x > 0`, where Python `%` is `Int.emod`. -/
def is_power_of_three (x : Int) : Bool :=
  decide (0 < x) && decide (MAX_POWER_OF_THREE % x = 0)

/-- Python `range(start, stop)` over integers (`stop` exclusive). -/
def int_range (start stop : Int) : List Int :=
  (List.range (stop - start).toNat).map (fun i => start + i)

/-- The `while number > 1` loop shared by `prime_factors_callback`
and `prime_factors_generator`, with the emitted factors collected
into a list.  `fuel` bounds the number of loop iterations; a result
of `none` means the bound was hit before the loop finished. -/
def prime_factors_loop : Nat → Int → Int → Option (List Int)
  | 0, _, _ => none
  | fuel + 1, number, factor =>
    if 1 < number then
      if number % factor = 0 then
        (prime_factors_loop fuel (number / factor) factor).map (factor :: ·)
      else
        prime_factors_loop fuel number (factor + if factor = 2 then 1 else 2)
    else
      some []

/-- `prime_factors_generator(number)`: the list of factors yielded by
the loop, run with enough fuel (adequacy of this fuel is proved
below, so the `getD` default is never taken). -/
def prime_factors_generator (number : Int) : List Int :=
  (prime_factors_loop ((2 * number).toNat + 1) number 2).getD []

/-- `prime_factors_callback(number, callback)`: the same loop, but
each factor is pushed into a caller-supplied accumulator — the
shallow embedding of the mutating callback. -/
def prime_factors_callback (α : Type) :
    Nat → Int → Int → α → (α → Int → α) → Option α
  | 0, _, _, _, _ => none
  | fuel + 1, number, factor, acc, callback =>
    if 1 < number then
      if number % factor = 0 then
        prime_factors_callback α fuel (number / factor) factor
          (callback acc factor) callback
      else
        prime_factors_callback α fuel number
          (factor + if factor = 2 then 1 else 2) acc callback
    else
      some acc

/-- The state of a `PrimeFactors` iterator: its mutable fields
`number` and `factor` (`__init__` sets `factor = 2`). -/
structure PrimeFactors where
  number : Int
  factor : Int

/-- `PrimeFactors.__next__`: `some (some (f, s))` is a returned
factor `f` together with the updated iterator state `s`;
`some none` is `StopIteration`; `none` means the fuel bound was hit
inside the inner `while` loop. -/
def PrimeFactors.next : Nat → PrimeFactors → Option (Option (Int × PrimeFactors))
  | 0, _ => none
  | fuel + 1, s =>
    if 1 < s.number then
      if s.number % s.factor = 0 then
        some (some (s.factor, ⟨s.number / s.factor, s.factor⟩))
      else
        PrimeFactors.next fuel ⟨s.number, s.factor + if s.factor = 2 then 1 else 2⟩
    else
      some none

/-- Driving a `PrimeFactors` iterator to exhaustion — the embedding
of Python's `for factor in PrimeFactors(value)` protocol — and
collecting the returned factors. -/
def PrimeFactors.drain : Nat → PrimeFactors → Option (List Int)
  | 0, _ => none
  | fuel + 1, s =>
    match PrimeFactors.next (fuel + 1) s with
    | none => none
    | some none => some []
    | some (some (f, s')) => (PrimeFactors.drain fuel s').map (f :: ·)

/-- The factor list obtained by fully iterating
`PrimeFactors(number)`, run with enough fuel. -/
def PrimeFactors.toList (number : Int) : List Int :=
  (PrimeFactors.drain ((2 * number).toNat + 1) ⟨number, 2⟩).getD []

/-- The `record_factor` closure of `pipeline_callbacks`:
`sum_factors += factor; count += 1` on the accumulator pair. -/
def record_factor (acc : Int × Int) (factor : Int) : Int × Int :=
  (acc.1 + factor, acc.2 + 1)

/-- `pipeline_callbacks`, generalized over the two range bounds that
the source fixes to `PIPE_START` and `PIPE_END`. -/
def pipeline_callbacks_range (start stop : Int) : Int × Int :=
  (int_range start (stop + 1)).foldl
    (fun acc value =>
      if !is_power_of_two value && !is_power_of_three value then
        (prime_factors_callback (Int × Int) ((2 * value).toNat + 1) value 2
          acc record_factor).getD acc
      else
        acc)
    (0, 0)

/-- The zero-argument entry point `pipeline_callbacks`. -/
def pipeline_callbacks : Int × Int :=
  pipeline_callbacks_range PIPE_START PIPE_END

/-- `pipeline_generators`, generalized over the two range bounds. -/
def pipeline_generators_range (start stop : Int) : Int × Int :=
  let values := int_range start (stop + 1)
  let values := values.filter (fun x => !is_power_of_two x)
  let values := values.filter (fun x => !is_power_of_three x)
  let values_factors := values.map prime_factors_generator
  let all_factors := values_factors.flatten
  all_factors.foldl (fun acc factor => (acc.1 + factor, acc.2 + 1)) (0, 0)

/-- The zero-argument entry point `pipeline_generators`. -/
def pipeline_generators : Int × Int :=
  pipeline_generators_range PIPE_START PIPE_END

/-- `pipeline_generators` with its two filter stages swapped, used to
state the filter-commutation property. -/
def pipeline_generators_swapped_range (start stop : Int) : Int × Int :=
  let values := int_range start (stop + 1)
  let values := values.filter (fun x => !is_power_of_three x)
  let values := values.filter (fun x => !is_power_of_two x)
  let values_factors := values.map prime_factors_generator
  let all_factors := values_factors.flatten
  all_factors.foldl (fun acc factor => (acc.1 + factor, acc.2 + 1)) (0, 0)

/-- `pipeline_iterators`, generalized over the two range bounds. -/
def pipeline_iterators_range (start stop : Int) : Int × Int :=
  (int_range start (stop + 1)).foldl
    (fun acc value =>
      if !is_power_of_two value && !is_power_of_three value then
        (PrimeFactors.toList value).foldl
          (fun acc factor => (acc.1 + factor, acc.2 + 1)) acc
      else
        acc)
    (0, 0)

/-- The zero-argument entry point `pipeline_iterators`. -/
def pipeline_iterators : Int × Int :=
  pipeline_iterators_range PIPE_START PIPE_END

/-- `ForRangeStage(start, end).process`: clear the buffer and extend
it with `range(start, end + 1)`. -/
def ForRangeStage.process (start stop : Int) (_data : List Int) : List Int :=
  int_range start (stop + 1)

/-- `FilterStage(predicate).process`: keep exactly the values that do
NOT satisfy the predicate. -/
def FilterStage.process (predicate : Int → Bool) (data : List Int) : List Int :=
  data.filter (fun x => !predicate x)

/-- `PrimeFactorsStage.process`: replace every value by its factor
sequence, produced by iterating a `PrimeFactors` cursor. -/
def PrimeFactorsStage.process (data : List Int) : List Int :=
  (data.map (fun val => PrimeFactors.toList val)).flatten

/-- `pipeline_dynamic_dispatch`, generalized over the range bounds:
the four stages applied in order to one buffer, then
`(sum(data), len(data))`. -/
def pipeline_dynamic_dispatch_range (start stop : Int) : Int × Int :=
  let data : List Int := []
  let data := ForRangeStage.process start stop data
  let data := FilterStage.process is_power_of_two data
  let data := FilterStage.process is_power_of_three data
  let data := PrimeFactorsStage.process data
  (data.sum, (data.length : Int))

/-- The zero-argument entry point `pipeline_dynamic_dispatch`. -/
def pipeline_dynamic_dispatch : Int × Int :=
  pipeline_dynamic_dispatch_range PIPE_START PIPE_END

/-- `for_range_async(start, end)`: the values produced by the async
source generator, in production order. -/
def for_range_async (start stop : Int) : List Int :=
  int_range start (stop + 1)

/-- `filter_async(generator, predicate)`: the values of `generator`
that do NOT satisfy `predicate`, in order. -/
def filter_async (generator : List Int) (predicate : Int → Bool) : List Int :=
  generator.filter (fun value => !predicate value)

/-- `prime_factors_async(generator)`: all prime factors of the values
coming from `generator`, in order. -/
def prime_factors_async (generator : List Int) : List Int :=
  (generator.map (fun val => prime_factors_generator val)).flatten

/-- `pipeline_async`, generalized over the two range bounds. -/
def pipeline_async_range (start stop : Int) : Int × Int :=
  let values := for_range_async start stop
  let values := filter_async values is_power_of_two
  let values := filter_async values is_power_of_three
  let values := prime_factors_async values
  values.foldl (fun acc factor => (acc.1 + factor, acc.2 + 1)) (0, 0)

/-- The zero-argument entry point `pipeline_async`. -/
def pipeline_async : Int × Int :=
  pipeline_async_range PIPE_START PIPE_END

/-- The reachable-state invariant of the trial-division loop: the
trial divisor is `2` or odd `≥ 3`, it does not exceed the remainder
while the loop is still running, and no candidate divisor below it
divides the remainder. -/
def PFInv (number factor : Int) : Prop :=
  (factor = 2 ∨ (3 ≤ factor ∧ factor % 2 = 1)) ∧
  (number ≤ 1 ∨ factor ≤ number) ∧
  ∀ d : Int, 2 ≤ d → d < factor → ¬ d ∣ number

/-- Big-step semantics of the factorization loop: some fuel makes it
finish with the list `l`. -/
def LoopComputes (number factor : Int) (l : List Int) : Prop :=
  ∃ fuel, prime_factors_loop fuel number factor = some l

/-- Big-step semantics of one `PrimeFactors.__next__` call: some fuel
makes it finish with result `r`. -/
def NextComputes (s : PrimeFactors) (r : Option (Int × PrimeFactors)) : Prop :=
  ∃ fuel, PrimeFactors.next fuel s = some r

theorem PFInv.factor_two_le {n f : Int} (h : PFInv n f) : 2 ≤ f := by
  rcases h.1 with h1 | h1 <;> omega

theorem PFInv_init (n : Int) : PFInv n 2 := by
  refine ⟨Or.inl rfl, by omega, ?_⟩
  intro d h2 hlt
  omega

theorem PFInv_divide {n f : Int} (h : PFInv n f) (h1 : 1 < n) (h2 : f ∣ n) :
    PFInv (n / f) f ∧ 1 ≤ n / f ∧ n / f < n := by
  have hf2 : 2 ≤ f := h.factor_two_le
  have hq : f * (n / f) = n := Int.mul_ediv_cancel' h2
  have hfn : f ≤ n := Int.le_of_dvd (by omega) h2
  have hq1 : 1 ≤ n / f := by
    rw [Int.le_ediv_iff_mul_le (by omega : (0:Int) < f)]; omega
  have hqdvd : n / f ∣ n := ⟨f, (Int.ediv_mul_cancel h2).symm⟩
  have h2q : 2 * (n / f) ≤ f * (n / f) :=
    mul_le_mul_of_nonneg_right (by omega) (by omega)
  rw [hq] at h2q
  have hqn : n / f < n := by omega
  refine ⟨⟨h.1, ?_, ?_⟩, hq1, hqn⟩
  · by_cases hq2 : n / f ≤ 1
    · exact Or.inl hq2
    · right
      set q := n / f with hqdef
      have hm : 2 ≤ q.toNat := by omega
      have hp : q.toNat.minFac ∣ q.toNat := Nat.minFac_dvd q.toNat
      have hpp : Nat.Prime q.toNat.minFac := Nat.minFac_prime (by omega)
      have hple : (q.toNat.minFac : Int) ≤ (q.toNat : Int) := by
        exact_mod_cast Nat.minFac_le (by omega)
      have hdvdq : (q.toNat.minFac : Int) ∣ q := by
        have hcast : ((q.toNat : Int)) = q := by omega
        rw [← hcast]
        exact_mod_cast hp
      have hdvdn : (q.toNat.minFac : Int) ∣ n := hdvdq.trans hqdvd
      have h2le : (2 : Int) ≤ (q.toNat.minFac : Int) := by exact_mod_cast hpp.two_le
      by_contra hcon
      push_neg at hcon
      exact h.2.2 q.toNat.minFac h2le (by omega) hdvdn
  · intro d hd2 hdf hdq
    exact h.2.2 d hd2 hdf (hdq.trans hqdvd)

theorem PFInv_bump {n f : Int} (h : PFInv n f) (h1 : 1 < n) (h2 : ¬ f ∣ n) :
    PFInv n (f + if f = 2 then 1 else 2) ∧
      f < f + (if f = 2 then 1 else 2) ∧ f + (if f = 2 then 1 else 2) ≤ n := by
  have hf2 : 2 ≤ f := h.factor_two_le
  have hfn : f ≤ n := by rcases h.2.1 with h3 | h3 <;> omega
  have hfne : f ≠ n := fun he => h2 (he ▸ dvd_refl f)
  by_cases hf : f = 2
  · rw [if_pos hf]
    subst hf
    have hn2 : n % 2 ≠ 0 := fun hm => h2 (Int.dvd_of_emod_eq_zero hm)
    have hn3 : 3 ≤ n := by omega
    refine ⟨⟨Or.inr (by omega), Or.inr (by omega), ?_⟩, by omega, by omega⟩
    intro d hd2 hd3 hdn
    have hd : d = 2 := by omega
    exact h2 (by rw [← hd]; exact hdn)
  · rw [if_neg hf]
    have hf3 : 3 ≤ f ∧ f % 2 = 1 := by
      rcases h.1 with h3 | h3
      · omega
      · exact h3
    have hodd2 : ¬ (2:Int) ∣ n := fun hdvd => h.2.2 2 (by omega) (by omega) hdvd
    have hne1 : n ≠ f + 1 := by
      intro he
      exact hodd2 ⟨(f + 1) / 2, by omega⟩
    refine ⟨⟨Or.inr ⟨by omega, by omega⟩, Or.inr (by omega), ?_⟩, by omega, by omega⟩
    intro d hd2 hdf2 hdn
    by_cases hdlt : d < f
    · exact h.2.2 d hd2 hdlt hdn
    · by_cases hdf : d = f
      · exact h2 (hdf ▸ hdn)
      · have hd1 : d = f + 1 := by omega
        have h2d : (2:Int) ∣ d := ⟨(f + 1) / 2, by omega⟩
        exact hodd2 (h2d.trans hdn)

theorem prime_factors_loop_mono :
    ∀ (fuel : Nat) {fuel' : Nat} {n f : Int} {l : List Int},
      prime_factors_loop fuel n f = some l → fuel ≤ fuel' →
      prime_factors_loop fuel' n f = some l := by
  intro fuel
  induction fuel with
  | zero => intro fuel' n f l h _; simp [prime_factors_loop] at h
  | succ fuel ih =>
    intro fuel' n f l h hle
    obtain ⟨fuel2, rfl⟩ : ∃ k, fuel' = k + 1 := ⟨fuel' - 1, by omega⟩
    simp only [prime_factors_loop] at h ⊢
    by_cases h1 : 1 < n
    · simp only [if_pos h1] at h ⊢
      by_cases h2 : n % f = 0
      · simp only [if_pos h2] at h ⊢
        rcases hx : prime_factors_loop fuel (n / f) f with _ | l'
        · rw [hx] at h; simp at h
        · rw [hx] at h
          rw [ih hx (by omega)]
          exact h
      · simp only [if_neg h2] at h ⊢
        exact ih h (by omega)
    · simp only [if_neg h1] at h ⊢
      exact h

theorem prime_factors_loop_det {fuel fuel' : Nat} {n f : Int} {l l' : List Int}
    (h : prime_factors_loop fuel n f = some l)
    (h' : prime_factors_loop fuel' n f = some l') : l = l' := by
  rcases le_total fuel fuel' with hle | hle
  · have h2 := prime_factors_loop_mono fuel h hle
    rw [h2] at h'
    exact Option.some_inj.mp h'
  · have h2 := prime_factors_loop_mono fuel' h' hle
    rw [h2] at h
    exact (Option.some_inj.mp h).symm

theorem prime_factors_loop_adequate :
    ∀ (fuel : Nat) (n f : Int), PFInv n f → (n + (n - f)).toNat < fuel →
      ∃ l, prime_factors_loop fuel n f = some l := by
  intro fuel
  induction fuel with
  | zero => intro n f _ h; omega
  | succ fuel ih =>
    intro n f hinv hfuel
    simp only [prime_factors_loop]
    by_cases h1 : 1 < n
    · simp only [if_pos h1]
      have hfn : f ≤ n := by rcases hinv.2.1 with h3 | h3 <;> omega
      have hf2 : 2 ≤ f := hinv.factor_two_le
      by_cases h2 : n % f = 0
      · simp only [if_pos h2]
        have hdvd : f ∣ n := Int.dvd_of_emod_eq_zero h2
        obtain ⟨hinv', hq1, hqn⟩ := PFInv_divide hinv h1 hdvd
        obtain ⟨l, hl⟩ := ih (n / f) f hinv' (by omega)
        exact ⟨f :: l, by rw [hl]; rfl⟩
      · simp only [if_neg h2]
        have hndvd : ¬ f ∣ n := fun hd => h2 (Int.emod_eq_zero_of_dvd hd)
        obtain ⟨hinv', hlt, hle⟩ := PFInv_bump hinv h1 hndvd
        exact ih n _ hinv' (by omega)
    · exact ⟨[], by simp [if_neg h1]⟩

theorem prime_factors_generator_computes (n : Int) :
    prime_factors_loop ((2 * n).toNat + 1) n 2 = some (prime_factors_generator n) := by
  obtain ⟨l, hl⟩ :=
    prime_factors_loop_adequate ((2 * n).toNat + 1) n 2 (PFInv_init n) (by omega)
  rw [prime_factors_generator, hl]
  rfl

theorem prime_factors_loop_prod :
    ∀ (fuel : Nat) (n f : Int) (l : List Int), 2 ≤ f → 1 ≤ n →
      prime_factors_loop fuel n f = some l → l.prod = n := by
  intro fuel
  induction fuel with
  | zero => intro n f l _ _ h; simp [prime_factors_loop] at h
  | succ fuel ih =>
    intro n f l hf2 hn1 h
    simp only [prime_factors_loop] at h
    by_cases h1 : 1 < n
    · simp only [if_pos h1] at h
      by_cases h2 : n % f = 0
      · simp only [if_pos h2] at h
        rcases hx : prime_factors_loop fuel (n / f) f with _ | l'
        · rw [hx] at h; simp at h
        · rw [hx] at h
          have hl : l = f :: l' := by simpa using h.symm
          subst hl
          have hdvd : f ∣ n := Int.dvd_of_emod_eq_zero h2
          have hq : f * (n / f) = n := Int.mul_ediv_cancel' hdvd
          have hfn : f ≤ n := Int.le_of_dvd (by omega) hdvd
          have hq1 : 1 ≤ n / f := by
            rw [Int.le_ediv_iff_mul_le (by omega : (0:Int) < f)]; omega
          have hprod := ih (n / f) f l' hf2 hq1 hx
          rw [List.prod_cons, hprod, hq]
      · simp only [if_neg h2] at h
        have hf2' : 2 ≤ f + if f = 2 then 1 else 2 := by split <;> omega
        exact ih n _ l hf2' hn1 h
    · simp only [if_neg h1] at h
      have hl : l = [] := by simpa using h.symm
      subst hl
      have hn : n = 1 := by omega
      simp [hn]

theorem prime_factors_loop_sorted :
    ∀ (fuel : Nat) (n f : Int) (l : List Int),
      prime_factors_loop fuel n f = some l →
      List.Sorted (· ≤ ·) l ∧ ∀ x ∈ l, f ≤ x := by
  intro fuel
  induction fuel with
  | zero => intro n f l h; simp [prime_factors_loop] at h
  | succ fuel ih =>
    intro n f l h
    simp only [prime_factors_loop] at h
    by_cases h1 : 1 < n
    · simp only [if_pos h1] at h
      by_cases h2 : n % f = 0
      · simp only [if_pos h2] at h
        rcases hx : prime_factors_loop fuel (n / f) f with _ | l'
        · rw [hx] at h; simp at h
        · rw [hx] at h
          have hl : l = f :: l' := by simpa using h.symm
          subst hl
          obtain ⟨hs, hb⟩ := ih _ _ _ hx
          refine ⟨List.sorted_cons.mpr ⟨hb, hs⟩, ?_⟩
          intro x hx'
          rcases List.mem_cons.mp hx' with rfl | hmem
          · exact le_refl x
          · exact hb x hmem
      · simp only [if_neg h2] at h
        obtain ⟨hs, hb⟩ := ih _ _ _ h
        refine ⟨hs, fun x hx' => ?_⟩
        have hfx := hb x hx'
        have hstep : f ≤ f + if f = 2 then 1 else 2 := by split <;> omega
        omega
    · simp only [if_neg h1] at h
      have hl : l = [] := by simpa using h.symm
      subst hl
      simp

theorem prime_factors_loop_ne_nil :
    ∀ (fuel : Nat) (n f : Int) (l : List Int), 1 < n →
      prime_factors_loop fuel n f = some l → l ≠ [] := by
  intro fuel
  induction fuel with
  | zero => intro n f l _ h; simp [prime_factors_loop] at h
  | succ fuel ih =>
    intro n f l h1 h
    simp only [prime_factors_loop, if_pos h1] at h
    by_cases h2 : n % f = 0
    · simp only [if_pos h2] at h
      rcases hx : prime_factors_loop fuel (n / f) f with _ | l'
      · rw [hx] at h; simp at h
      · rw [hx] at h
        have hl : l = f :: l' := by simpa using h.symm
        subst hl
        simp
    · simp only [if_neg h2] at h
      exact ih n _ l h1 h

theorem prime_factors_callback_eq (α : Type) :
    ∀ (fuel : Nat) (n f : Int) (acc : α) (cb : α → Int → α),
      prime_factors_callback α fuel n f acc cb =
        (prime_factors_loop fuel n f).map (fun l => l.foldl cb acc) := by
  intro fuel
  induction fuel with
  | zero => intro n f acc cb; rfl
  | succ fuel ih =>
    intro n f acc cb
    simp only [prime_factors_callback, prime_factors_loop]
    by_cases h1 : 1 < n
    · simp only [if_pos h1]
      by_cases h2 : n % f = 0
      · simp only [if_pos h2]
        rw [ih]
        rcases hx : prime_factors_loop fuel (n / f) f with _ | l'
        · simp
        · simp [List.foldl_cons]
      · simp only [if_neg h2]
        exact ih n _ acc cb
    · simp only [if_neg h1]
      rfl

theorem PrimeFactors.next_mono :
    ∀ (fuel : Nat) {fuel' : Nat} {s : PrimeFactors} {r : Option (Int × PrimeFactors)},
      PrimeFactors.next fuel s = some r → fuel ≤ fuel' →
      PrimeFactors.next fuel' s = some r := by
  intro fuel
  induction fuel with
  | zero => intro fuel' s r h _; simp [PrimeFactors.next] at h
  | succ fuel ih =>
    intro fuel' s r h hle
    obtain ⟨fuel2, rfl⟩ : ∃ k, fuel' = k + 1 := ⟨fuel' - 1, by omega⟩
    simp only [PrimeFactors.next] at h ⊢
    by_cases h1 : 1 < s.number
    · simp only [if_pos h1] at h ⊢
      by_cases h2 : s.number % s.factor = 0
      · simp only [if_pos h2] at h ⊢
        exact h
      · simp only [if_neg h2] at h ⊢
        exact ih h (by omega)
    · simp only [if_neg h1] at h ⊢
      exact h

theorem PrimeFactors.drain_mono :
    ∀ (fuel : Nat) {fuel' : Nat} {s : PrimeFactors} {l : List Int},
      PrimeFactors.drain fuel s = some l → fuel ≤ fuel' →
      PrimeFactors.drain fuel' s = some l := by
  intro fuel
  induction fuel with
  | zero => intro fuel' s l h _; simp [PrimeFactors.drain] at h
  | succ fuel ih =>
    intro fuel' s l h hle
    obtain ⟨fuel2, rfl⟩ : ∃ k, fuel' = k + 1 := ⟨fuel' - 1, by omega⟩
    rcases hn : PrimeFactors.next (fuel + 1) s with _ | (_ | ⟨x, s'⟩)
    · simp only [PrimeFactors.drain, hn] at h
      exact Option.noConfusion h
    · simp only [PrimeFactors.drain, hn] at h ⊢
      rw [PrimeFactors.next_mono _ hn (by omega)]
      exact h
    · simp only [PrimeFactors.drain, hn] at h ⊢
      rw [PrimeFactors.next_mono _ hn (by omega)]
      rcases hd : PrimeFactors.drain fuel s' with _ | l'
      · rw [hd] at h; simp at h
      · rw [hd] at h
        simp only [ih hd (show fuel ≤ fuel2 by omega)]
        exact h

theorem PrimeFactors.drain_succ (fuel : Nat) (s : PrimeFactors) :
    PrimeFactors.drain (fuel + 1) s =
      match PrimeFactors.next (fuel + 1) s with
      | none => none
      | some none => some []
      | some (some (f, s')) => (PrimeFactors.drain fuel s').map (f :: ·) := rfl

theorem PrimeFactors.drain_adequate :
    ∀ (fuel : Nat) (n f : Int), PFInv n f → (n + (n - f)).toNat < fuel →
      ∃ l, PrimeFactors.drain fuel ⟨n, f⟩ = some l := by
  intro fuel
  induction fuel with
  | zero => intro n f _ h; omega
  | succ fuel ih =>
    intro n f hinv hfuel
    by_cases h1 : 1 < n
    · have hfn : f ≤ n := by rcases hinv.2.1 with h3 | h3 <;> omega
      have hf2 : 2 ≤ f := hinv.factor_two_le
      by_cases h2 : n % f = 0
      · have hn : PrimeFactors.next (fuel + 1) ⟨n, f⟩ = some (some (f, ⟨n / f, f⟩)) := by
          simp only [PrimeFactors.next]
          simp [h1, h2]
        have hdvd : f ∣ n := Int.dvd_of_emod_eq_zero h2
        obtain ⟨hinv', hq1, hqn⟩ := PFInv_divide hinv h1 hdvd
        obtain ⟨l, hl⟩ := ih (n / f) f hinv' (by omega)
        refine ⟨f :: l, ?_⟩
        simp only [PrimeFactors.drain, hn, hl]
        rfl
      · have hndvd : ¬ f ∣ n := fun hd => h2 (Int.emod_eq_zero_of_dvd hd)
        obtain ⟨hinv', hlt, hle⟩ := PFInv_bump hinv h1 hndvd
        obtain ⟨l, hl⟩ := ih n _ hinv' (by omega)
        refine ⟨l, ?_⟩
        obtain ⟨fuel0, rfl⟩ : ∃ k, fuel = k + 1 := ⟨fuel - 1, by omega⟩
        have hstep : PrimeFactors.next (fuel0 + 1 + 1) ⟨n, f⟩ =
            PrimeFactors.next (fuel0 + 1) ⟨n, f + if f = 2 then 1 else 2⟩ := by
          simp only [PrimeFactors.next]
          simp [h1, h2]
        rcases hnx : PrimeFactors.next (fuel0 + 1) ⟨n, f + if f = 2 then 1 else 2⟩
          with _ | (_ | ⟨x, s'⟩)
        · simp only [PrimeFactors.drain, hnx] at hl
          exact Option.noConfusion hl
        · simp only [PrimeFactors.drain, hnx] at hl
          rw [PrimeFactors.drain_succ, hstep, hnx]
          exact hl
        · simp only [PrimeFactors.drain, hnx] at hl
          rw [PrimeFactors.drain_succ, hstep, hnx]
          show (PrimeFactors.drain (fuel0 + 1) s').map (x :: ·) = some l
          rcases hd : PrimeFactors.drain fuel0 s' with _ | l'
          · rw [hd] at hl; simp at hl
          · rw [hd] at hl
            rw [PrimeFactors.drain_mono fuel0 hd (by omega)]
            exact hl
    · refine ⟨[], ?_⟩
      have hn : PrimeFactors.next (fuel + 1) ⟨n, f⟩ = some none := by
        simp only [PrimeFactors.next]
        simp [h1]
      simp only [PrimeFactors.drain, hn]

theorem PrimeFactors.next_none_sim :
    ∀ (fuel : Nat) (n f : Int),
      PrimeFactors.next fuel ⟨n, f⟩ = some none →
      ∃ g, prime_factors_loop g n f = some [] := by
  intro fuel
  induction fuel with
  | zero => intro n f h; simp [PrimeFactors.next] at h
  | succ fuel ih =>
    intro n f h
    simp only [PrimeFactors.next] at h
    by_cases h1 : 1 < n
    · rw [if_pos (show 1 < (PrimeFactors.mk n f).number from h1)] at h
      by_cases h2 : n % f = 0
      · rw [if_pos (show (PrimeFactors.mk n f).number % (PrimeFactors.mk n f).factor = 0 from h2)] at h
        simp at h
      · rw [if_neg (show ¬ (PrimeFactors.mk n f).number % (PrimeFactors.mk n f).factor = 0 from h2)] at h
        obtain ⟨g, hg⟩ := ih n _ h
        refine ⟨g + 1, ?_⟩
        simp only [prime_factors_loop, if_pos h1, if_neg h2]
        exact hg
    · exact ⟨1, by simp [prime_factors_loop, if_neg h1]⟩

theorem PrimeFactors.next_some_sim :
    ∀ (fuel : Nat) (n f x : Int) (s' : PrimeFactors),
      PrimeFactors.next fuel ⟨n, f⟩ = some (some (x, s')) →
      ∀ (g : Nat) (l : List Int), prime_factors_loop g s'.number s'.factor = some l →
      ∃ g2, prime_factors_loop g2 n f = some (x :: l) := by
  intro fuel
  induction fuel with
  | zero => intro n f x s' h; simp [PrimeFactors.next] at h
  | succ fuel ih =>
    intro n f x s' h g l hg
    simp only [PrimeFactors.next] at h
    by_cases h1 : 1 < n
    · rw [if_pos (show 1 < (PrimeFactors.mk n f).number from h1)] at h
      by_cases h2 : n % f = 0
      · rw [if_pos (show (PrimeFactors.mk n f).number % (PrimeFactors.mk n f).factor = 0 from h2)] at h
        simp only [Option.some.injEq, Prod.mk.injEq] at h
        obtain ⟨rfl, rfl⟩ := h
        refine ⟨g + 1, ?_⟩
        simp only [prime_factors_loop, if_pos h1, if_pos h2]
        rw [hg]
        rfl
      · rw [if_neg (show ¬ (PrimeFactors.mk n f).number % (PrimeFactors.mk n f).factor = 0 from h2)] at h
        obtain ⟨g2, hg2⟩ := ih n _ x s' h g l hg
        refine ⟨g2 + 1, ?_⟩
        simp only [prime_factors_loop, if_pos h1, if_neg h2]
        exact hg2
    · rw [if_neg (show ¬ 1 < (PrimeFactors.mk n f).number from h1)] at h
      simp at h

theorem PrimeFactors.drain_sim :
    ∀ (fuel : Nat) (s : PrimeFactors) (l : List Int),
      PrimeFactors.drain fuel s = some l →
      ∃ g, prime_factors_loop g s.number s.factor = some l := by
  intro fuel
  induction fuel with
  | zero => intro s l h; simp [PrimeFactors.drain] at h
  | succ fuel ih =>
    intro s l h
    rcases hn : PrimeFactors.next (fuel + 1) s with _ | (_ | ⟨x, s'⟩)
    · simp only [PrimeFactors.drain, hn] at h
      exact Option.noConfusion h
    · simp only [PrimeFactors.drain, hn, Option.some.injEq] at h
      subst h
      rcases s with ⟨n, f⟩
      exact PrimeFactors.next_none_sim _ n f hn
    · simp only [PrimeFactors.drain, hn] at h
      rcases hd : PrimeFactors.drain fuel s' with _ | l'
      · rw [hd] at h; simp at h
      · rw [hd] at h
        simp only [Option.map_some', Option.some.injEq] at h
        subst h
        obtain ⟨g, hg⟩ := ih s' l' hd
        rcases s with ⟨n, f⟩
        exact PrimeFactors.next_some_sim _ n f x s' hn g l' hg

theorem PrimeFactors.toList_eq (n : Int) :
    PrimeFactors.toList n = prime_factors_generator n := by
  obtain ⟨l, hl⟩ :=
    PrimeFactors.drain_adequate ((2 * n).toNat + 1) n 2 (PFInv_init n) (by omega)
  obtain ⟨g, hg⟩ := PrimeFactors.drain_sim _ _ _ hl
  have hcan := prime_factors_generator_computes n
  have heq : l = prime_factors_generator n := prime_factors_loop_det hg hcan
  rw [PrimeFactors.toList, hl, heq]
  rfl

theorem PrimeFactors.next_char :
    ∀ (fuel : Nat) (n f : Int) (r : Option (Int × PrimeFactors)),
      PFInv n f → 1 < n →
      PrimeFactors.next fuel ⟨n, f⟩ = some r →
      ∃ x s', r = some (x, s') ∧ x = s'.factor ∧ f ≤ x ∧ x ∣ n ∧
        s'.number = n / x ∧ PFInv s'.number s'.factor ∧
        ∀ d : Int, f ≤ d → d < x → ¬ d ∣ n := by
  intro fuel
  induction fuel with
  | zero => intro n f r _ _ h; simp [PrimeFactors.next] at h
  | succ fuel ih =>
    intro n f r hinv h1 h
    simp only [PrimeFactors.next] at h
    rw [if_pos (show 1 < (PrimeFactors.mk n f).number from h1)] at h
    by_cases h2 : n % f = 0
    · rw [if_pos (show (PrimeFactors.mk n f).number % (PrimeFactors.mk n f).factor = 0 from h2)] at h
      have hr : r = some (f, ⟨n / f, f⟩) := (Option.some_inj.mp h).symm
      subst hr
      have hdvd : f ∣ n := Int.dvd_of_emod_eq_zero h2
      obtain ⟨hinv', hq1, hqn⟩ := PFInv_divide hinv h1 hdvd
      exact ⟨f, ⟨n / f, f⟩, rfl, rfl, le_refl f, hdvd, rfl, hinv',
        fun d hd1 hd2 => absurd hd2 (by omega)⟩
    · rw [if_neg (show ¬ (PrimeFactors.mk n f).number % (PrimeFactors.mk n f).factor = 0 from h2)] at h
      obtain ⟨hinv', hlt, hle⟩ :=
        PFInv_bump hinv h1 (fun hd => h2 (Int.emod_eq_zero_of_dvd hd))
      obtain ⟨x, s', hr, hxf, hfx, hdvd, hnum, hinvs, hleast⟩ := ih n _ r hinv' h1 h
      refine ⟨x, s', hr, hxf, by omega, hdvd, hnum, hinvs, ?_⟩
      intro d hd1 hd2 hdn
      by_cases hdge : f + (if f = 2 then 1 else 2) ≤ d
      · exact hleast d hdge hd2 hdn
      · by_cases hdf : d = f
        · exact h2 (Int.emod_eq_zero_of_dvd (hdf ▸ hdn))
        · have hf2 : f ≠ 2 := by
            intro hf
            rw [if_pos hf] at hdge
            omega
          rw [if_neg hf2] at hdge
          have hd1' : d = f + 1 := by omega
          have hf3 : 3 ≤ f ∧ f % 2 = 1 := by
            rcases hinv.1 with h3 | h3
            · exact absurd h3 hf2
            · exact h3
          have h2d : (2:Int) ∣ d := ⟨(f + 1) / 2, by omega⟩
          exact hinv.2.2 2 (by omega) (by omega) (h2d.trans hdn)

theorem PrimeFactors.next_det {fuel fuel' : Nat} {s : PrimeFactors}
    {r r' : Option (Int × PrimeFactors)}
    (h : PrimeFactors.next fuel s = some r)
    (h' : PrimeFactors.next fuel' s = some r') : r = r' := by
  rcases le_total fuel fuel' with hle | hle
  · have h2 := PrimeFactors.next_mono fuel h hle
    rw [h2] at h'
    exact Option.some_inj.mp h'
  · have h2 := PrimeFactors.next_mono fuel' h' hle
    rw [h2] at h
    exact (Option.some_inj.mp h).symm

theorem PrimeFactors.next_exists {n f : Int} (hinv : PFInv n f) :
    ∃ r, NextComputes ⟨n, f⟩ r := by
  obtain ⟨l, hl⟩ :=
    PrimeFactors.drain_adequate ((n + (n - f)).toNat + 1) n f hinv (by omega)
  rcases hn : PrimeFactors.next ((n + (n - f)).toNat + 1) ⟨n, f⟩ with _ | r
  · rw [PrimeFactors.drain_succ, hn] at hl
    exact Option.noConfusion hl
  · exact ⟨r, (n + (n - f)).toNat + 1, hn⟩

theorem foldl_record (l : List Int) (acc : Int × Int) :
    l.foldl (fun acc factor => (acc.1 + factor, acc.2 + 1)) acc =
      (acc.1 + l.sum, acc.2 + (l.length : Int)) := by
  induction l generalizing acc with
  | nil => simp
  | cons x xs ih =>
    simp only [List.foldl_cons, ih, List.sum_cons, List.length_cons, Prod.mk.injEq]
    constructor
    · ring
    · push_cast
      ring

theorem foldl_if_filter (c : Int → Bool) (g : Int → List Int)
    (step : Int × Int → Int → Int × Int) :
    ∀ (l : List Int) (acc : Int × Int),
      l.foldl (fun acc value => if c value then (g value).foldl step acc else acc)
          acc =
        (((l.filter c).map g).flatten).foldl step acc := by
  intro l
  induction l with
  | nil => intro acc; rfl
  | cons x xs ih =>
    intro acc
    simp only [List.foldl_cons, List.filter_cons]
    by_cases hc : c x = true
    · rw [if_pos hc, if_pos hc]
      simp only [List.map_cons, List.flatten_cons, List.foldl_append]
      exact ih _
    · rw [if_neg hc, if_neg hc]
      exact ih acc

theorem callback_body_eq (value : Int) (acc : Int × Int) :
    (prime_factors_callback (Int × Int) ((2 * value).toNat + 1) value 2
        acc record_factor).getD acc =
      (prime_factors_generator value).foldl record_factor acc := by
  rw [prime_factors_callback_eq, prime_factors_generator_computes value]
  rfl

theorem filter_two_then_three (l : List Int) :
    l.filter (fun v => !is_power_of_two v && !is_power_of_three v) =
      (l.filter (fun x => !is_power_of_two x)).filter
        (fun x => !is_power_of_three x) := by
  rw [List.filter_filter]
  exact List.filter_congr (fun x _ => Bool.and_comm _ _)

theorem filter_stages_comm (l : List Int) :
    (l.filter (fun x => !is_power_of_three x)).filter (fun x => !is_power_of_two x) =
      (l.filter (fun x => !is_power_of_two x)).filter
        (fun x => !is_power_of_three x) := by
  rw [List.filter_filter, List.filter_filter]
  exact List.filter_congr (fun x _ => Bool.and_comm _ _)

theorem pipeline_callbacks_eq_generators (a b : Int) :
    pipeline_callbacks_range a b = pipeline_generators_range a b := by
  have hbody : (fun (acc : Int × Int) (value : Int) =>
      if !is_power_of_two value && !is_power_of_three value then
        (prime_factors_callback (Int × Int) ((2 * value).toNat + 1) value 2
          acc record_factor).getD acc
      else acc) =
      (fun (acc : Int × Int) (value : Int) =>
        if !is_power_of_two value && !is_power_of_three value then
          (prime_factors_generator value).foldl record_factor acc
        else acc) := by
    funext acc value
    by_cases hc : (!is_power_of_two value && !is_power_of_three value) = true
    · rw [if_pos hc, if_pos hc, callback_body_eq]
    · rw [if_neg hc, if_neg hc]
  rw [pipeline_callbacks_range, hbody,
    foldl_if_filter (fun value => !is_power_of_two value && !is_power_of_three value)
      prime_factors_generator record_factor,
    filter_two_then_three]
  rfl

theorem pipeline_iterators_eq_generators (a b : Int) :
    pipeline_iterators_range a b = pipeline_generators_range a b := by
  have hbody : (fun (acc : Int × Int) (value : Int) =>
      if !is_power_of_two value && !is_power_of_three value then
        (PrimeFactors.toList value).foldl
          (fun acc factor => (acc.1 + factor, acc.2 + 1)) acc
      else acc) =
      (fun (acc : Int × Int) (value : Int) =>
        if !is_power_of_two value && !is_power_of_three value then
          (prime_factors_generator value).foldl
            (fun acc factor => (acc.1 + factor, acc.2 + 1)) acc
        else acc) := by
    funext acc value
    rw [PrimeFactors.toList_eq]
  rw [pipeline_iterators_range, hbody,
    foldl_if_filter (fun value => !is_power_of_two value && !is_power_of_three value)
      prime_factors_generator (fun acc factor => (acc.1 + factor, acc.2 + 1)),
    filter_two_then_three]
  rfl

theorem pipeline_dynamic_eq_generators (a b : Int) :
    pipeline_dynamic_dispatch_range a b = pipeline_generators_range a b := by
  have htl : (fun val => PrimeFactors.toList val) = prime_factors_generator :=
    funext PrimeFactors.toList_eq
  rw [pipeline_dynamic_dispatch_range, pipeline_generators_range]
  simp only [ForRangeStage.process, FilterStage.process, PrimeFactorsStage.process, htl]
  rw [foldl_record]
  simp

theorem pipeline_async_eq_generators (a b : Int) :
    pipeline_async_range a b = pipeline_generators_range a b := rfl

theorem pipeline_generators_swapped_eq (a b : Int) :
    pipeline_generators_swapped_range a b = pipeline_generators_range a b := by
  simp only [pipeline_generators_swapped_range, pipeline_generators_range]
  rw [filter_stages_comm]

theorem nat_land_pred_eq_zero_iff :
    ∀ n : Nat, 1 ≤ n → (n &&& (n - 1) = 0 ↔ ∃ k, n = 2 ^ k) := by
  intro n
  induction n using Nat.strong_induction_on with
  | _ n ih =>
    intro hn1
    rcases Nat.lt_or_ge n 2 with h2 | h2
    · have hn : n = 1 := by omega
      subst hn
      constructor
      · intro _
        exact ⟨0, rfl⟩
      · intro _
        decide
    · rcases Nat.even_or_odd n with he | ho
      · obtain ⟨m, hm⟩ := he
        have hm' : n = 2 * m := by omega
        have hm1 : 1 ≤ m := by omega
        have hdiv1 : n / 2 = m := by omega
        have hdiv2 : (n - 1) / 2 = m - 1 := by omega
        have hkey : (n &&& (n - 1) = 0) ↔ (m &&& (m - 1) = 0) := by
          constructor
          · intro h
            apply Nat.eq_of_testBit_eq
            intro i
            rw [Nat.zero_testBit, Nat.testBit_land]
            have hc : (n &&& (n - 1)).testBit (i + 1) = false := by
              rw [h, Nat.zero_testBit]
            rw [Nat.testBit_land] at hc
            simp only [Nat.testBit_succ] at hc
            rw [hdiv1, hdiv2] at hc
            exact hc
          · intro h
            apply Nat.eq_of_testBit_eq
            intro i
            rw [Nat.zero_testBit, Nat.testBit_land]
            cases i with
            | zero =>
              have hmod : ¬ (n % 2 = 1) := by omega
              simp [Nat.testBit_zero, hmod]
            | succ i =>
              rw [Nat.testBit_succ, Nat.testBit_succ, hdiv1, hdiv2]
              have hc : (m &&& (m - 1)).testBit i = false := by
                rw [h, Nat.zero_testBit]
              rw [Nat.testBit_land] at hc
              exact hc
        rw [hkey, ih m (by omega) hm1]
        constructor
        · rintro ⟨k, hk⟩
          refine ⟨k + 1, ?_⟩
          rw [hm', hk, pow_succ]
          ring
        · rintro ⟨k, hk⟩
          cases k with
          | zero =>
            norm_num at hk
            omega
          | succ k =>
            refine ⟨k, ?_⟩
            have hp : 2 * m = 2 * 2 ^ k := by
              rw [← hm', hk, pow_succ]
              ring
            omega
      · obtain ⟨m, hm⟩ := ho
        have hm1 : 1 ≤ m := by omega
        have hdiv1 : n / 2 = m := by omega
        have hdiv2 : (n - 1) / 2 = m := by omega
        constructor
        · intro h
          exfalso
          have hmz : m = 0 := by
            apply Nat.eq_of_testBit_eq
            intro i
            rw [Nat.zero_testBit]
            have hc : (n &&& (n - 1)).testBit (i + 1) = false := by
              rw [h, Nat.zero_testBit]
            rw [Nat.testBit_land] at hc
            simp only [Nat.testBit_succ] at hc
            rw [hdiv1, hdiv2] at hc
            simpa using hc
          omega
        · rintro ⟨k, hk⟩
          exfalso
          cases k with
          | zero =>
            norm_num at hk
            omega
          | succ k =>
            have hp : n % 2 = 0 := by
              rw [hk, pow_succ]
              exact Nat.mul_mod_left (2 ^ k) 2
            omega

/-- Claim C5: `is_power_of_two` returns true exactly on the positive
powers of two (the integers with exactly one set bit), and false on
every `x ≤ 0`; being a total Lean function, it never raises. -/
theorem claim5_is_power_of_two (x : Int) :
    is_power_of_two x = true ↔ (0 < x ∧ ∃ k : Nat, x = 2 ^ k) := by
  rw [is_power_of_two]
  simp only [Bool.and_eq_true, decide_eq_true_eq]
  constructor
  · rintro ⟨hx, hand⟩
    refine ⟨hx, ?_⟩
    obtain ⟨k, hk⟩ := (nat_land_pred_eq_zero_iff x.toNat (by omega)).mp hand
    refine ⟨k, ?_⟩
    have hc : (x.toNat : Int) = x := by omega
    rw [← hc, hk]
    push_cast
    ring
  · rintro ⟨hx, k, hk⟩
    refine ⟨hx, ?_⟩
    apply (nat_land_pred_eq_zero_iff x.toNat (by omega)).mpr
    refine ⟨k, ?_⟩
    have hcast : (((2:Nat) ^ k : Nat) : Int) = (2:Int) ^ k := by
      push_cast
      ring
    have hk' : x = (((2:Nat) ^ k : Nat) : Int) := by rw [hk, hcast]
    omega

/-- Claim C6: `is_power_of_three` returns true iff `x > 0` and `x`
divides the constant `3 ^ 40 = 12157665459056928801`; equivalently it
is true exactly on the powers of three up to `3 ^ 40`, and false on
every `x ≤ 0`. -/
theorem claim6_is_power_of_three (x : Int) :
    (is_power_of_three x = true ↔ 0 < x ∧ x ∣ 3 ^ 40) ∧
    MAX_POWER_OF_THREE = 3 ^ 40 ∧
    (is_power_of_three x = true ↔ ∃ k : Nat, k ≤ 40 ∧ x = 3 ^ k) := by
  have hconst : MAX_POWER_OF_THREE = (3:Int) ^ 40 := by
    rw [MAX_POWER_OF_THREE]
    norm_num
  have hdvd : is_power_of_three x = true ↔ 0 < x ∧ x ∣ 3 ^ 40 := by
    rw [is_power_of_three]
    simp only [Bool.and_eq_true, decide_eq_true_eq]
    constructor
    · rintro ⟨hx, hmod⟩
      rw [hconst] at hmod
      exact ⟨hx, Int.dvd_of_emod_eq_zero hmod⟩
    · rintro ⟨hx, hd⟩
      refine ⟨hx, ?_⟩
      rw [hconst]
      exact Int.emod_eq_zero_of_dvd hd
  refine ⟨hdvd, hconst, ?_⟩
  rw [hdvd]
  constructor
  · rintro ⟨hx, hd⟩
    have hc : (x.toNat : Int) = x := by omega
    have hdn : x.toNat ∣ 3 ^ 40 := by
      have : (x.toNat : Int) ∣ ((3 ^ 40 : Nat) : Int) := by
        rw [hc]
        exact_mod_cast hd
      exact_mod_cast this
    obtain ⟨k, hk40, hkm⟩ := (Nat.dvd_prime_pow Nat.prime_three).mp hdn
    refine ⟨k, hk40, ?_⟩
    rw [← hc, hkm]
    push_cast
    ring
  · rintro ⟨k, hk40, hk⟩
    have hx : 0 < x := by
      rw [hk]
      positivity
    exact ⟨hx, hk ▸ pow_dvd_pow 3 hk40⟩

/-- Claim C10: `3 ^ 41` is a power of three, yet `is_power_of_three`
returns false on it, because the test divides the fixed constant
`3 ^ 40`. -/
theorem claim10_large_power_of_three :
    is_power_of_three ((3:Int) ^ 41) = false ∧
    (∃ k : Nat, (3:Int) ^ 41 = 3 ^ k) ∧
    MAX_POWER_OF_THREE = 3 ^ 40 := by
  refine ⟨by decide, ⟨41, rfl⟩, ?_⟩
  rw [MAX_POWER_OF_THREE]
  norm_num

theorem foldl_push (l : List Int) :
    ∀ acc : List Int, l.foldl (fun acc x => acc ++ [x]) acc = acc ++ l := by
  induction l with
  | nil => intro acc; simp
  | cons x xs ih =>
    intro acc
    simp only [List.foldl_cons, ih]
    simp

set_option maxRecDepth 40000 in
/-- Claim C1: each of the five zero-argument pipeline entry points
returns exactly the pair `(645, 84)` when run over the fixed
canonical range `[PIPE_START, PIPE_END] = [3, 49]`. -/
theorem claim1_canonical_result :
    PIPE_START = 3 ∧ PIPE_END = 49 ∧
    pipeline_callbacks = (645, 84) ∧ pipeline_generators = (645, 84) ∧
    pipeline_iterators = (645, 84) ∧ pipeline_dynamic_dispatch = (645, 84) ∧
    pipeline_async = (645, 84) := by
  decide

/-- Claim C2: for every inclusive range `[a, b]` with `1 ≤ a ≤ b`
substituted for the fixed constants, all five pipeline
implementations return pairwise identical `(sum, count)` pairs. -/
theorem claim2_pipelines_agree (a b : Int) (_h1 : 1 ≤ a) (_h2 : a ≤ b) :
    pipeline_callbacks_range a b = pipeline_generators_range a b ∧
    pipeline_iterators_range a b = pipeline_generators_range a b ∧
    pipeline_dynamic_dispatch_range a b = pipeline_generators_range a b ∧
    pipeline_async_range a b = pipeline_generators_range a b :=
  ⟨pipeline_callbacks_eq_generators a b, pipeline_iterators_eq_generators a b,
   pipeline_dynamic_eq_generators a b, pipeline_async_eq_generators a b⟩

/-- Witness for claim C2, at the concrete range `[2, 5]`. -/
theorem claim2_witness :
    pipeline_callbacks_range 2 5 = pipeline_generators_range 2 5 ∧
    pipeline_iterators_range 2 5 = pipeline_generators_range 2 5 ∧
    pipeline_dynamic_dispatch_range 2 5 = pipeline_generators_range 2 5 ∧
    pipeline_async_range 2 5 = pipeline_generators_range 2 5 :=
  claim2_pipelines_agree 2 5 (by decide) (by decide)

/-- Claim C3: for every integer `n > 1` the emitted factor sequence
multiplies back to `n`, is non-decreasing and nonempty; the iterator
and callback styles emit the same sequence; and for `n = 1` the
emitted sequence is empty. -/
theorem claim3_factorization (n : Int) (h : 1 < n) :
    (prime_factors_generator n).prod = n ∧
    List.Sorted (· ≤ ·) (prime_factors_generator n) ∧
    1 ≤ (prime_factors_generator n).length ∧
    PrimeFactors.toList n = prime_factors_generator n ∧
    prime_factors_callback (List Int) ((2 * n).toNat + 1) n 2 []
        (fun acc factor => acc ++ [factor]) =
      some (prime_factors_generator n) ∧
    prime_factors_generator 1 = [] := by
  have hcan := prime_factors_generator_computes n
  refine ⟨prime_factors_loop_prod _ n 2 _ (by omega) (by omega) hcan,
    (prime_factors_loop_sorted _ n 2 _ hcan).1, ?_, PrimeFactors.toList_eq n, ?_, rfl⟩
  · have hne := prime_factors_loop_ne_nil _ n 2 _ h hcan
    have hpos := List.length_pos.mpr hne
    omega
  · rw [prime_factors_callback_eq, hcan]
    simp [foldl_push]

/-- Witness for claim C3, at `n = 12`. -/
theorem claim3_witness :
    (prime_factors_generator 12).prod = 12 ∧
    List.Sorted (· ≤ ·) (prime_factors_generator 12) ∧
    1 ≤ (prime_factors_generator 12).length ∧
    PrimeFactors.toList 12 = prime_factors_generator 12 ∧
    prime_factors_callback (List Int) ((2 * (12:Int)).toNat + 1) 12 2 []
        (fun acc factor => acc ++ [factor]) =
      some (prime_factors_generator 12) ∧
    prime_factors_generator 1 = [] :=
  claim3_factorization 12 (by decide)

/-- Claim C4: for every `n ≥ 1` the trial-division loop terminates:
any fuel beyond the `2·n` bound makes both the generator loop and the
callback loop finish with `some` (never the fuel-exhaustion `none`),
and the result does not depend on the fuel, so the embeddings are
total on positive integers. -/
theorem claim4_termination (n : Int) (fuel : Nat) (hn : 1 ≤ n)
    (hfuel : (2 * n).toNat < fuel) (α : Type) (acc : α) (cb : α → Int → α) :
    prime_factors_loop fuel n 2 = some (prime_factors_generator n) ∧
    prime_factors_callback α fuel n 2 acc cb =
      some ((prime_factors_generator n).foldl cb acc) := by
  obtain ⟨l, hl⟩ := prime_factors_loop_adequate fuel n 2 (PFInv_init n) (by omega)
  have heq : l = prime_factors_generator n :=
    prime_factors_loop_det hl (prime_factors_generator_computes n)
  subst heq
  refine ⟨hl, ?_⟩
  rw [prime_factors_callback_eq, hl]
  rfl

/-- Witness for claim C4, at `n = 6` with fuel `13`. -/
theorem claim4_witness :
    prime_factors_loop 13 6 2 = some (prime_factors_generator 6) ∧
    prime_factors_callback Nat 13 6 2 0 (fun a _ => a + 1) =
      some ((prime_factors_generator 6).foldl (fun a _ => a + 1) 0) :=
  claim4_termination 6 13 (by decide) (by decide) Nat 0 (fun a _ => a + 1)

/-- Claim C7: the `PrimeFactors` cursor realizes the specified state
machine: from any state satisfying the reachable-state invariant,
advancing signals `StopIteration` exactly when the remainder is `≤ 1`;
otherwise it emits the first divisor at or above the current one
(retrying past candidates that do not divide), divides the remainder
by it, and keeps that divisor in the updated state. -/
theorem claim7_cursor_state_machine (n f : Int) (hinv : PFInv n f) :
    (NextComputes ⟨n, f⟩ none ↔ n ≤ 1) ∧
    (∀ (x : Int) (s' : PrimeFactors), NextComputes ⟨n, f⟩ (some (x, s')) →
      1 < n ∧ x = s'.factor ∧ f ≤ x ∧ x ∣ n ∧ s'.number = n / x ∧
        PFInv s'.number s'.factor ∧ ∀ d : Int, f ≤ d → d < x → ¬ d ∣ n) ∧
    (1 < n → ∃ (x : Int) (s' : PrimeFactors), NextComputes ⟨n, f⟩ (some (x, s'))) := by
  refine ⟨⟨?_, ?_⟩, ?_, ?_⟩
  · rintro ⟨fuel, hfuel⟩
    by_contra h1
    push_neg at h1
    obtain ⟨x, s', hr, _⟩ := PrimeFactors.next_char fuel n f none hinv h1 hfuel
    exact Option.noConfusion hr
  · intro h1
    refine ⟨1, ?_⟩
    simp [PrimeFactors.next, h1]
  · rintro x s' ⟨fuel, hfuel⟩
    by_cases h1 : 1 < n
    · obtain ⟨x2, s2, hr, hxf, hfx, hdvd, hnum, hinvs, hleast⟩ :=
        PrimeFactors.next_char fuel n f _ hinv h1 hfuel
      have hpair : x = x2 ∧ s' = s2 := by
        simpa using hr
      obtain ⟨rfl, rfl⟩ := hpair
      exact ⟨h1, hxf, hfx, hdvd, hnum, hinvs, hleast⟩
    · exfalso
      have hnone : PrimeFactors.next 1 ⟨n, f⟩ = some none := by
        simp [PrimeFactors.next, h1]
      exact Option.noConfusion (PrimeFactors.next_det hfuel hnone)
  · intro h1
    obtain ⟨r, fuel, hfuel⟩ := PrimeFactors.next_exists hinv
    obtain ⟨x, s', hrr, _⟩ := PrimeFactors.next_char fuel n f r hinv h1 hfuel
    subst hrr
    exact ⟨x, s', fuel, hfuel⟩

/-- Witness for claim C7, at the freshly constructed cursor state
`PrimeFactors(12)` (remainder 12, divisor 2). -/
theorem claim7_witness :
    (NextComputes ⟨12, 2⟩ none ↔ (12:Int) ≤ 1) ∧
    (∀ (x : Int) (s' : PrimeFactors), NextComputes ⟨12, 2⟩ (some (x, s')) →
      1 < (12:Int) ∧ x = s'.factor ∧ (2:Int) ≤ x ∧ x ∣ 12 ∧ s'.number = 12 / x ∧
        PFInv s'.number s'.factor ∧ ∀ d : Int, 2 ≤ d → d < x → ¬ d ∣ 12) ∧
    (1 < (12:Int) → ∃ (x : Int) (s' : PrimeFactors), NextComputes ⟨12, 2⟩ (some (x, s'))) :=
  claim7_cursor_state_machine 12 2 (PFInv_init 12)

/-- Claim C8: the two filter predicates commute: applied in either
order to any buffer they produce the same surviving list in the same
order, so the generator pipeline with swapped filter stages returns
the same final pair on every range. -/
theorem claim8_filters_commute (a b : Int) (data : List Int) :
    FilterStage.process is_power_of_three (FilterStage.process is_power_of_two data) =
      FilterStage.process is_power_of_two (FilterStage.process is_power_of_three data) ∧
    pipeline_generators_swapped_range a b = pipeline_generators_range a b := by
  constructor
  · simp only [FilterStage.process]
    exact (filter_stages_comm data).symm
  · exact pipeline_generators_swapped_eq a b

/-- Claim C9: every factorizer embedding is total also for `n ≤ 1`
(including 0 and negative numbers): with any positive fuel the loop
guard fails at once, no factors are emitted, and the cursor signals
immediate exhaustion — no exception and no divergence. -/
theorem claim9_small_inputs (n : Int) (hn : n ≤ 1) (fuel : Nat)
    (hfuel : 1 ≤ fuel) (f : Int) (α : Type) (acc : α) (cb : α → Int → α) :
    prime_factors_loop fuel n 2 = some [] ∧
    prime_factors_generator n = [] ∧
    prime_factors_callback α fuel n 2 acc cb = some acc ∧
    PrimeFactors.next fuel ⟨n, f⟩ = some none ∧
    PrimeFactors.drain fuel ⟨n, f⟩ = some [] := by
  obtain ⟨fuel0, rfl⟩ : ∃ k, fuel = k + 1 := ⟨fuel - 1, by omega⟩
  have h1 : ¬ 1 < n := by omega
  have hnext : PrimeFactors.next (fuel0 + 1) ⟨n, f⟩ = some none := by
    simp [PrimeFactors.next, h1]
  refine ⟨by simp [prime_factors_loop, h1], ?_, by simp [prime_factors_callback, h1],
    hnext, ?_⟩
  · rw [prime_factors_generator]
    have hz : prime_factors_loop ((2 * n).toNat + 1) n 2 = some [] := by
      simp [prime_factors_loop, h1]
    rw [hz]
    rfl
  · rw [PrimeFactors.drain_succ, hnext]

/-- Witness for claim C9, at `n = -5` with fuel `1`. -/
theorem claim9_witness :
    prime_factors_loop 1 (-5) 2 = some [] ∧
    prime_factors_generator (-5) = [] ∧
    prime_factors_callback Nat 1 (-5) 2 0 (fun a _ => a) = some 0 ∧
    PrimeFactors.next 1 ⟨-5, 2⟩ = some none ∧
    PrimeFactors.drain 1 ⟨-5, 2⟩ = some [] :=
  claim9_small_inputs (-5) (by decide) 1 (by decide) 2 Nat 0 (fun a _ => a)
